import Mathlib

/-!
Verification of the agentic-honeypot extraction-and-scoring service
(src/main.py) through a shallow embedding.

The embedding covers:

* the three entity-extraction regexes of extract_intelligence
  (UPI/payment handles, bank-account numbers, phishing URLs), embedded as
  executable leftmost, non-overlapping, greedy-with-backtracking scanners
  over List Char, matching the semantics of Python re.findall for these
  patterns (character classes are taken in their ASCII reading; the claims
  under study do not depend on non-ASCII class membership);
* the keyword/entity confidence scorer analyze_scam_intent, with scores in
  the rationals - on every value this scorer can produce (multiples of
  1/10 between 0 and 3/2) IEEE double arithmetic as performed by the
  Python source agrees exactly with rational arithmetic at every
  comparison, clamp and rounding step, so the rational model is faithful;
* the HTTP layer: the universal handler's tolerant body handling and the
  API-key check of validate_api_key.

Python's list(set(...)) deduplication is modelled by List.dedup (the
resulting order is unspecified by the source and not relied upon).
-/

set_option maxRecDepth 20000

/-- Word characters of the regexes (ASCII fragment of Python's backslash-w):
letters, digits and underscore. -/
def isWordChar (c : Char) : Bool := c.isAlphanum || c == '_'

/-- Lift a character test to an optional neighbouring character; a missing
neighbour (edge of the string) never satisfies the test. -/
def optB (p : Char → Bool) : Option Char → Bool
  | none => false
  | some c => p c

/-- Word-character test on an optional character, used for word boundaries. -/
def wordB : Option Char → Bool := optB isWordChar

/-! ### Bank-account extraction: re.findall of the pattern \b\d{9,18}\b -/

/-- Backtracking step for the quantifier d{9,18}: starting from the greedy
candidate length, try g, g-1, ..., 9 and accept the first candidate whose
trailing position is a word boundary.  It is only invoked with g at most
the length of the digit run at the current position, so after g digits the
previous character is a digit (a word character) and the trailing boundary
holds exactly when the following character is not a word character. -/
def bankTry (l : List Char) : Nat → Option Nat
  | 0 => none
  | g + 1 =>
    if g + 1 < 9 then none
    else if wordB (l.drop (g + 1)).head? then bankTry l g
    else some (g + 1)

/-- Attempt to match \b\d{9,18}\b at the current position. prev is the
character immediately before the position (none at the start of the text).
The leading word boundary holds when the word-ness of prev and of the
current character differ; then d{9,18} matches greedily (at most 18 of the
digit run ahead) with backtracking handled by bankTry. -/
def bankMatchAt (prev : Option Char) (l : List Char) : Option Nat :=
  if wordB prev == wordB l.head? then none
  else bankTry l (min (l.takeWhile Char.isDigit).length 18)

/-- The scan loop of re.findall: try to match at each position from left to
right; on success emit the matched text and continue immediately after it,
otherwise advance one character.  The fuel argument (instantiated with the
text length) makes the recursion structural. -/
def bankScan : Nat → Option Char → List Char → List String
  | 0, _, _ => []
  | _ + 1, _, [] => []
  | fuel + 1, prev, c :: rest =>
    match bankMatchAt prev (c :: rest) with
    | some L =>
        ((c :: rest).take L).asString ::
          bankScan fuel (some (((c :: rest).take L).getLastD c)) ((c :: rest).drop L)
    | none => bankScan fuel (some c) rest

/-- list(set(re.findall(bank_account_pattern, text))) of src/main.py. -/
def bankFindAll (s : String) : List String :=
  (bankScan s.toList.length none s.toList).dedup

/-! ### UPI / payment-handle extraction:
re.findall of the pattern [a-zA-Z0-9.\-_]{2,256}@[a-zA-Z]{2,64} -/

/-- The local-part character class [a-zA-Z0-9.\-_]. -/
def localChar (c : Char) : Bool := c.isAlphanum || c == '.' || c == '-' || c == '_'

/-- Backtracking step for the local part: starting from the greedy candidate
length, try g, g-1, ..., 2; a candidate succeeds when it is followed by a
literal at-sign and at least two alphabetic domain characters, in which
case the domain is matched greedily, capped at 64 characters. -/
def upiTryLocal (l : List Char) : Nat → Option (Nat × Nat)
  | 0 => none
  | g + 1 =>
    if g + 1 < 2 then none
    else
      match l.drop (g + 1) with
      | c2 :: rest2 =>
          if c2 = '@' then
            if 2 ≤ (rest2.takeWhile Char.isAlpha).length then
              some (g + 1, min (rest2.takeWhile Char.isAlpha).length 64)
            else upiTryLocal l g
          else upiTryLocal l g
      | [] => upiTryLocal l g

/-- Attempt to match the UPI pattern at the current position; returns the
total match length (local part, at-sign, domain). -/
def upiMatchAt (l : List Char) : Option Nat :=
  match upiTryLocal l (min (l.takeWhile localChar).length 256) with
  | some (a, d) => some (a + 1 + d)
  | none => none

/-- Leftmost non-overlapping scan for the UPI pattern (as in re.findall). -/
def upiScan : Nat → List Char → List String
  | 0, _ => []
  | _ + 1, [] => []
  | fuel + 1, c :: rest =>
    match upiMatchAt (c :: rest) with
    | some L => ((c :: rest).take L).asString :: upiScan fuel ((c :: rest).drop L)
    | none => upiScan fuel rest

/-- list(set(re.findall(upi_pattern, text))) of src/main.py. -/
def upiFindAll (s : String) : List String :=
  (upiScan s.toList.length s.toList).dedup

/-! ### URL extraction: re.findall of the pattern
https?://(?:[-\w.]|(?:%[\da-fA-F]{2}))+(?:/[-\w._~:/?#[\]@!$&'()*+,;=]*)? -/

/-- The host character class [-\w.]. -/
def hostChar (c : Char) : Bool := c == '-' || isWordChar c || c == '.'

/-- The hexadecimal-digit class [\da-fA-F]. -/
def isHexChar (c : Char) : Bool :=
  c.isDigit || ('a' ≤ c && c ≤ 'f') || ('A' ≤ c && c ≤ 'F')

/-- The path/query/fragment character class [-\w._~:/?#[\]@!$&'()*+,;=]. -/
def pathChar (c : Char) : Bool :=
  c == '-' || isWordChar c || c == '.' || c == '~' || c == ':' || c == '/' ||
  c == '?' || c == '#' || c == '[' || c == ']' || c == '@' || c == '!' ||
  c == '$' || c == '&' || c == '\'' || c == '(' || c == ')' || c == '*' ||
  c == '+' || c == ',' || c == ';' || c == '='

/-- Greedy match of the one-or-more host group (?:[-\w.]|(?:%XX))+ :
returns the number of characters consumed.  A percent sign is consumed
only together with two following hexadecimal digits; the first character
that fits neither alternative stops the loop.  The alternatives are
disjoint (a percent sign is not a host character), so no backtracking can
arise inside this group and greedy consumption is exact. -/
def takeHost : Nat → List Char → Nat
  | 0, _ => 0
  | _ + 1, [] => 0
  | fuel + 1, c :: rest =>
    if hostChar c then 1 + takeHost fuel rest
    else if c == '%' then
      match rest with
      | h1 :: h2 :: rest2 =>
          if isHexChar h1 && isHexChar h2 then 3 + takeHost fuel rest2 else 0
      | _ => 0
    else 0

/-- Attempt to match the URL pattern after its scheme of k characters: the
host group must consume at least one character; then the optional path
group applies only when a slash follows, consuming path characters
greedily.  Nothing follows the optional group, so no backtracking occurs
across groups. -/
def urlMatchTail (k : Nat) (l : List Char) : Option Nat :=
  let rest := l.drop k
  let n := takeHost rest.length rest
  if n = 0 then none
  else if (rest.drop n).head? = some '/' then
    some (k + n + 1 + ((rest.drop (n + 1)).takeWhile pathChar).length)
  else some (k + n)

/-- Attempt to match the URL pattern at the current position.  The scheme
alternation https? is greedy, so the https prefix is tried first. -/
def urlMatchAt (l : List Char) : Option Nat :=
  if ("https://".toList).isPrefixOf l then urlMatchTail 8 l
  else if ("http://".toList).isPrefixOf l then urlMatchTail 7 l
  else none

/-- Leftmost non-overlapping scan for the URL pattern (as in re.findall). -/
def urlScan : Nat → List Char → List String
  | 0, _ => []
  | _ + 1, [] => []
  | fuel + 1, c :: rest =>
    match urlMatchAt (c :: rest) with
    | some L => ((c :: rest).take L).asString :: urlScan fuel ((c :: rest).drop L)
    | none => urlScan fuel rest

/-- list(set(re.findall(url_pattern, text))) of src/main.py. -/
def urlFindAll (s : String) : List String :=
  (urlScan s.toList.length s.toList).dedup

/-! ### The extractor -/

/-- The record returned by extract_intelligence (dict with the three keys
upi_ids, bank_accounts, phishing_links in src/main.py). -/
structure ExtractedEntities where
  upi_ids : List String
  bank_accounts : List String
  phishing_links : List String
deriving DecidableEq

/-- extract_intelligence of src/main.py: on empty text (Python: not text)
return the three empty collections, otherwise run the three regex
extractions, each deduplicated. -/
def extract_intelligence (text : String) : ExtractedEntities :=
  if text.toList.isEmpty then ⟨[], [], []⟩
  else ⟨upiFindAll text, bankFindAll text, urlFindAll text⟩

/-! ### The scorer -/

/-- The scam_keywords list of analyze_scam_intent, exactly as in
src/main.py lines 70-75. -/
def scam_keywords : List String :=
  ["urgent", "winner", "lottery", "congratulations", "won", "prize",
   "verify", "kyc", "blocked", "account", "expire", "otp", "password",
   "credential", "refund", "deposit", "investment", "scheme", "double",
   "click here", "limited time", "act now", "action required"]

/-- Python's round(x, 2) (round-half-to-even), on rationals: scale by 100,
round to the nearest integer taking the even one at a tie, scale back. -/
def round2 (q : ℚ) : ℚ :=
  let n : ℤ := ⌊q * 100⌋
  let r : ℤ :=
    if q * 100 - n < 1 / 2 then n
    else if 1 / 2 < q * 100 - n then n + 1
    else if n % 2 = 0 then n else n + 1
  (r : ℚ) / 100

/-- analyze_scam_intent of src/main.py.  Python's guard
"not text or not text.strip()" holds exactly when the text is empty or all
of its characters are whitespace.  The keyword count sums one per keyword
of the list occurring in the lower-cased text (substring containment);
the score is accumulated exactly as in the source and clamped at 1.0; the
scam verdict compares the clamped, unrounded confidence with 0.4; the
returned confidence is rounded to two decimal places. -/
def analyze_scam_intent (text : String) (e : ExtractedEntities) : Bool × ℚ :=
  if text.toList.isEmpty || text.toList.all Char.isWhitespace then (false, 0)
  else
    let textLower := text.toList.map Char.toLower
    let hits := scam_keywords.countP (fun w => decide (w.toList <:+: textLower))
    let score1 : ℚ := if 0 < hits then 0.3 + ((min hits 5 : ℕ) : ℚ) * 0.1 else 0
    let score2 : ℚ := if e.phishing_links ≠ [] then score1 + 0.4 else score1
    let score3 : ℚ := if e.upi_ids ≠ [] ∨ e.bank_accounts ≠ [] then score2 + 0.3 else score2
    let confidence : ℚ := min score3 1
    (decide (confidence > 0.4), round2 confidence)

/-! ### The HTTP layer -/

/-- JSON values, for the parsed request body. -/
inductive Json where
  | null : Json
  | bool (b : Bool) : Json
  | num (n : Int) : Json
  | str (s : String) : Json
  | arr (xs : List Json) : Json
  | obj (fields : List (String × Json)) : Json

/-- The response record assembled by universal_handler (HoneypotResponse of
src/main.py). -/
structure HoneypotResponse where
  is_scam : Bool
  conversation_id : Option String
  engagement_active : Bool
  turns : Nat
  extracted_data : ExtractedEntities
  confidence : ℚ
  status : String

/-- universal_handler of src/main.py, given the request method and the
result of attempting to parse the body as JSON (none models a missing,
non-JSON or unreadable body, swallowed by the bare except of the source).
The message is taken from the body only when the method is POST, the body
parsed to a dict, and the message field holds a string with at least one
non-whitespace character (Python: isinstance(msg, str) and msg.strip());
only then does the status tag change from tester_ok to analysis_complete.
In every other case the defaults (empty message, tester_ok) are kept - in
particular no non-string value is ever coerced to a string. -/
def universal_handler (method : String) (body : Option Json) : HoneypotResponse :=
  let parsed : String × Option String × String :=
    if method = "POST" then
      match body with
      | some (Json.obj fields) =>
          let pm : String × String :=
            match List.lookup "message" fields with
            | some (Json.str s) =>
                if s.toList.all Char.isWhitespace then ("", "tester_ok")
                else (s, "analysis_complete")
            | _ => ("", "tester_ok")
          let cid : Option String :=
            match List.lookup "conversation_id" fields with
            | some (Json.str c) => some c
            | _ => none
          (pm.1, cid, pm.2)
      | _ => ("", none, "tester_ok")
    else ("", none, "tester_ok")
  let message := parsed.1
  let extracted := extract_intelligence message
  let sc := analyze_scam_intent message extracted
  { is_scam := sc.1, conversation_id := parsed.2.1, engagement_active := true,
    turns := 1, extracted_data := extracted, confidence := sc.2,
    status := parsed.2.2 }

/-- The shared secret API_KEY_VALUE of src/main.py. -/
def API_KEY_VALUE : String := "AIIHB-2026-SECRET"

/-- Case-insensitive header lookup (HTTP header names are case-insensitive,
as the framework of the source guarantees for the x-api-key header). -/
def getHeader (headers : List (String × String)) (name : String) : Option String :=
  (headers.find?
    (fun h => h.1.toList.map Char.toLower == name.toList.map Char.toLower)).map
    (fun h => h.2)

/-- An HTTP request: method, headers and the parsed JSON body (none models
a missing or unparseable body). -/
structure HttpRequest where
  method : String
  headers : List (String × String)
  body : Option Json

/-- The request pipeline around universal_handler.  A present x-api-key
header whose value differs from the shared secret makes validate_api_key
(src/main.py lines 30-37) raise HTTP 401 before the handler body runs.
Modelled from the spec: a request missing the x-api-key header is likewise
rejected with HTTP 401 before any body processing (the source declares the
header as required, so the framework rejects such requests before the
handler; the spec assigns HTTP 401 to both absence and mismatch).  Only an
authenticated request reaches universal_handler, which is the only place
extraction and scoring are invoked. -/
def serve (req : HttpRequest) : Nat × Option HoneypotResponse :=
  match getHeader req.headers "x-api-key" with
  | none => (401, none)
  | some k =>
      if k = API_KEY_VALUE then (200, some (universal_handler req.method req.body))
      else (401, none)

/-! ### Spec-side definitions (written from the claims' words) -/

/-- Spec-side, claim C1: the number of keywords of the fixed scam-keyword
list occurring as a substring of the lower-cased text, each keyword
counted at most once. -/
def c1_hits (text : String) : Nat :=
  (scam_keywords.filter (fun w => decide (w.toList <:+: text.toList.map Char.toLower))).length

/-- Spec-side, claim C1: the clamp to at most 1.0 of the sum of the keyword
term, the phishing-link term and the payment-handle or bank-account term. -/
def c1_confidence (text : String) (e : ExtractedEntities) : ℚ :=
  min ((if 0 < c1_hits text then 0.3 + 0.1 * ((min (c1_hits text) 5 : ℕ) : ℚ) else 0)
      + (if e.phishing_links ≠ [] then 0.4 else 0)
      + (if e.upi_ids ≠ [] ∨ e.bank_accounts ≠ [] then 0.3 else 0)) 1

/-- Spec-side, claim C4: the scam-indicator keywords enumerated in the
glossary of the spec, in the order listed there. -/
def glossary_keywords : List String :=
  ["urgent", "winner", "lottery", "congratulations", "won", "prize",
   "verify", "kyc", "blocked", "account", "expire", "otp", "password",
   "credential", "refund", "deposit", "investment", "scheme", "double",
   "click here", "limited time", "act now", "action required"]

/-- Spec-side, claim C5: the maximal runs of decimal digits of the text,
each paired with the neighbouring context, kept when the run is 9 to 18
digits long and neither neighbour (when present) satisfies the
disqualifying predicate bad.  prev is the character immediately before the
current position. -/
def bank_runs (bad : Char → Bool) : Nat → Option Char → List Char → List String
  | 0, _, _ => []
  | _ + 1, _, [] => []
  | fuel + 1, prev, c :: rest =>
    if c.isDigit then
      let run := c :: rest.takeWhile Char.isDigit
      let l' := rest.dropWhile Char.isDigit
      (if 9 ≤ run.length ∧ run.length ≤ 18 ∧ optB bad prev = false ∧
          optB bad l'.head? = false then [run.asString] else []) ++
        bank_runs bad fuel (some (run.getLastD c)) l'
    else bank_runs bad fuel (some c) rest

/-- Claim C5 as written: digit runs bounded by characters that are not
alphanumeric (the claim's reading of a word boundary). -/
def claim_bank_accounts (s : String) : List String :=
  (bank_runs Char.isAlphanum s.toList.length none s.toList).dedup

/-- Claim C5 amended: digit runs bounded by characters that are not word
characters (alphanumeric or underscore), the actual meaning of the word
boundary assertion. -/
def word_bank_accounts (s : String) : List String :=
  (bank_runs isWordChar s.toList.length none s.toList).dedup

/-- Spec-side, claim C8: a well-formed host section, i.e. a sequence of
units each of which is a single host character or a percent-encoded octet
(percent sign followed by two hexadecimal digits). -/
def hostUnitsOk : List Char → Bool
  | [] => true
  | c :: rest =>
    if hostChar c then hostUnitsOk rest
    else if c == '%' then
      match rest with
      | h1 :: h2 :: rest2 => isHexChar h1 && isHexChar h2 && hostUnitsOk rest2
      | _ => false
    else false

/-! ### Helper lemmas for the scorer -/

/-- On non-blank text the scorer returns the verdict and two-decimal rounding
of the clamped additive confidence formula. -/
theorem analyze_formula (text : String) (e : ExtractedEntities)
    (h : text.toList.all Char.isWhitespace = false) :
    analyze_scam_intent text e =
      (decide (c1_confidence text e > 0.4), round2 (c1_confidence text e)) := by
  have hne : text.toList.isEmpty = false := by
    cases ht : text.toList with
    | nil => rw [ht] at h; simp at h
    | cons a l => simp [ht]
  have hhits : scam_keywords.countP
      (fun w => decide (w.toList <:+: text.toList.map Char.toLower)) = c1_hits text := by
    rw [c1_hits, List.countP_eq_length_filter]
  unfold analyze_scam_intent
  rw [hne, h, Bool.or_self, if_neg (by simp)]
  simp only [hhits]
  have hconf : ((if e.upi_ids ≠ [] ∨ e.bank_accounts ≠ [] then
        (if e.phishing_links ≠ [] then
          (if 0 < c1_hits text then (0.3 : ℚ) + ((min (c1_hits text) 5 : ℕ) : ℚ) * 0.1 else 0) + 0.4
         else (if 0 < c1_hits text then (0.3 : ℚ) + ((min (c1_hits text) 5 : ℕ) : ℚ) * 0.1 else 0)) + 0.3
      else
        (if e.phishing_links ≠ [] then
          (if 0 < c1_hits text then (0.3 : ℚ) + ((min (c1_hits text) 5 : ℕ) : ℚ) * 0.1 else 0) + 0.4
         else (if 0 < c1_hits text then (0.3 : ℚ) + ((min (c1_hits text) 5 : ℕ) : ℚ) * 0.1 else 0))) ⊓ 1)
      = c1_confidence text e := by
    unfold c1_confidence
    split_ifs <;> push_cast <;> ring_nf
  rw [hconf]

/-- The clamped confidence is one of finitely many tenths, so rounding to two
decimals is the identity on it and it lies between 0 and 1. -/
theorem c1_conf_props (text : String) (e : ExtractedEntities) :
    round2 (c1_confidence text e) = c1_confidence text e ∧
    0 ≤ c1_confidence text e ∧ c1_confidence text e ≤ 1 := by
  unfold c1_confidence
  rcases Nat.eq_zero_or_pos (c1_hits text) with h0 | hpos
  · rw [h0, if_neg (lt_irrefl 0)]
    split_ifs <;> rw [min_def] <;> norm_num [round2]
  · rw [if_pos hpos]
    have h5 : min (c1_hits text) 5 = 1 ∨ min (c1_hits text) 5 = 2 ∨ min (c1_hits text) 5 = 3 ∨
        min (c1_hits text) 5 = 4 ∨ min (c1_hits text) 5 = 5 := by omega
    rcases h5 with h5|h5|h5|h5|h5 <;> rw [h5] <;> split_ifs <;>
      rw [min_def] <;> norm_num [round2]

/-! ### Claim theorems -/

/-- Claim C1: for every non-empty, non-whitespace-only text and every entities
record, the confidence before rounding is the clamp to at most 1.0 of the sum
of the keyword term (0.3 plus 0.1 per effective hit, hits capped at 5, only
when positive), 0.4 for a non-empty phishing-link collection, and 0.3 added
once when the payment-handle or bank-account collection is non-empty; the
returned confidence is that value rounded to two decimal places. -/
theorem c1_confidence_formula (text : String) (e : ExtractedEntities)
    (h : text.toList.all Char.isWhitespace = false) :
    (analyze_scam_intent text e).2 = round2 (c1_confidence text e) := by
  rw [analyze_formula text e h]

/-- Witness for C1: the text "urgent" with no entities. -/
theorem c1_confidence_formula_witness :
    (analyze_scam_intent "urgent" ⟨[], [], []⟩).2 =
      round2 (c1_confidence "urgent" ⟨[], [], []⟩) :=
  c1_confidence_formula "urgent" ⟨[], [], []⟩ (by decide)

/-- Claim C2: for every entities record, empty or whitespace-only text makes
the scorer return exactly (false, 0.0), independently of the entities. -/
theorem c2_empty_short_circuit (e : ExtractedEntities) (s : String)
    (h : s.toList.all Char.isWhitespace = true) :
    analyze_scam_intent s e = (false, 0) := by
  unfold analyze_scam_intent
  rw [h, Bool.or_true, if_pos rfl]

/-- Witness for C2: whitespace-only text with non-empty entity collections. -/
theorem c2_empty_short_circuit_witness :
    analyze_scam_intent "   " ⟨["a@bc"], ["123456789"], ["http://x"]⟩ = (false, 0) :=
  c2_empty_short_circuit ⟨["a@bc"], ["123456789"], ["http://x"]⟩ "   " (by decide)

/-- Claim C3: the verdict always equals the comparison of the returned
confidence with 0.4 (strict), the returned confidence lies in the interval
from 0 to 1, and empty or whitespace-only text yields (false, 0.0). -/
theorem c3_verdict_invariant (text : String) (e : ExtractedEntities) :
    (analyze_scam_intent text e).1 = decide ((analyze_scam_intent text e).2 > 0.4) ∧
    0 ≤ (analyze_scam_intent text e).2 ∧ (analyze_scam_intent text e).2 ≤ 1 ∧
    (text.toList.all Char.isWhitespace = true → analyze_scam_intent text e = (false, 0)) := by
  by_cases hw : text.toList.all Char.isWhitespace = true
  · have hz : analyze_scam_intent text e = (false, 0) := by
      unfold analyze_scam_intent; rw [hw, Bool.or_true, if_pos rfl]
    rw [hz]
    exact ⟨(decide_eq_false (by norm_num)).symm, by norm_num, by norm_num, fun _ => rfl⟩
  · have hw' : text.toList.all Char.isWhitespace = false := by
      cases hb : text.toList.all Char.isWhitespace
      · rfl
      · exact absurd hb hw
    rw [analyze_formula text e hw']
    obtain ⟨hr, h0, h1⟩ := c1_conf_props text e
    refine ⟨?_, ?_, ?_, fun hco => absurd hco hw⟩
    · simp only [hr]
    · simpa [hr] using h0
    · simpa [hr] using h1

/-- Witness for C3: instantiation at whitespace-only text with an entity. -/
theorem c3_verdict_invariant_witness :
    analyze_scam_intent " " ⟨["a@bc"], [], []⟩ = (false, 0) :=
  (c3_verdict_invariant " " ⟨["a@bc"], [], []⟩).2.2.2 (by decide)

/-- Counterexample to claim C4 as stated: the scorer's keyword list does not
have 22 entries. -/
theorem c4_keyword_list_counterexample : ¬ (scam_keywords.length = 22) := by decide

/-- Claim C4 amended: the scorer's fixed scam-indicator keyword list has
exactly 23 entries, and they are exactly the keywords enumerated in the
spec's glossary, in the order listed there. -/
theorem c4_keyword_list : scam_keywords = glossary_keywords ∧ scam_keywords.length = 23 :=
  ⟨rfl, rfl⟩

/-- Claim C6: the extractor is a total function whose three result
collections never contain duplicates, and the empty string yields three
empty collections. -/
theorem c6_extract_safety : ∀ s : String,
    ((extract_intelligence s).upi_ids.Nodup ∧ (extract_intelligence s).bank_accounts.Nodup ∧
      (extract_intelligence s).phishing_links.Nodup) ∧
    extract_intelligence "" = ⟨[], [], []⟩ := by
  intro s
  refine ⟨?_, rfl⟩
  unfold extract_intelligence
  split
  · simp
  · exact ⟨List.nodup_dedup _, List.nodup_dedup _, List.nodup_dedup _⟩

/-- Claim C9: a request without the correct shared secret in its x-api-key
header is answered with HTTP 401 and no response body is assembled (so no
extraction or scoring runs), and any response other than 401 implies the
request carried exactly the shared secret. -/
theorem c9_auth_gate (req : HttpRequest) :
    (getHeader req.headers "x-api-key" ≠ some API_KEY_VALUE → serve req = (401, none)) ∧
    ((serve req).1 ≠ 401 → getHeader req.headers "x-api-key" = some API_KEY_VALUE) := by
  cases hg : getHeader req.headers "x-api-key" with
  | none =>
      have hs : serve req = (401, none) := by simp [serve, hg]
      exact ⟨fun _ => hs, fun hc => absurd (by rw [hs]) hc⟩
  | some k =>
      by_cases hk : k = API_KEY_VALUE
      · subst hk
        exact ⟨fun hne => absurd rfl hne, fun _ => rfl⟩
      · have hs : serve req = (401, none) := by simp [serve, hg, hk]
        exact ⟨fun _ => hs, fun hc => absurd (by rw [hs]) hc⟩

/-- Witness for C9: a POST with a wrong key is rejected with 401. -/
theorem c9_auth_gate_witness :
    serve ⟨"POST", [("x-api-key", "wrong")], some (Json.str "hi")⟩ = (401, none) :=
  (c9_auth_gate ⟨"POST", [("x-api-key", "wrong")], some (Json.str "hi")⟩).1 (by decide)

/-- Claim C10: an authenticated POST whose message field is absent, not a
string, or whitespace-only is processed with the empty message (no coercion
to a string representation): the response has is_scam false, confidence 0,
three empty extracted collections and the default status tag tester_ok. -/
theorem c10_default_on_unusable_message (fields : List (String × Json))
    (h : match List.lookup "message" fields with
         | some (Json.str s) => s.toList.all Char.isWhitespace = true
         | some _ => True
         | none => True) :
    (universal_handler "POST" (some (Json.obj fields))).is_scam = false ∧
    (universal_handler "POST" (some (Json.obj fields))).confidence = 0 ∧
    (universal_handler "POST" (some (Json.obj fields))).extracted_data = ⟨[], [], []⟩ ∧
    (universal_handler "POST" (some (Json.obj fields))).status = "tester_ok" := by
  rcases hl : List.lookup "message" fields with _ | v
  · simp only [universal_handler, hl]
    exact ⟨rfl, rfl, rfl, rfl⟩
  · cases v with
    | str s =>
        rw [hl] at h
        simp only [universal_handler, hl, h]
        exact ⟨rfl, rfl, rfl, rfl⟩
    | null =>
        simp only [universal_handler, hl]
        exact ⟨rfl, rfl, rfl, rfl⟩
    | bool b =>
        simp only [universal_handler, hl]
        exact ⟨rfl, rfl, rfl, rfl⟩
    | num n =>
        simp only [universal_handler, hl]
        exact ⟨rfl, rfl, rfl, rfl⟩
    | arr xs =>
        simp only [universal_handler, hl]
        exact ⟨rfl, rfl, rfl, rfl⟩
    | obj fs =>
        simp only [universal_handler, hl]
        exact ⟨rfl, rfl, rfl, rfl⟩

/-- Witness for C10: a POST body whose message field holds a number. -/
theorem c10_default_on_unusable_message_witness :
    (universal_handler "POST" (some (Json.obj [("message", Json.num 7)]))).status = "tester_ok" :=
  (c10_default_on_unusable_message [("message", Json.num 7)] (by exact trivial)).2.2.2

/-- Counterexample to claim C5 as stated: a 9-digit run preceded by an
underscore is adjacent to no alphanumeric character, so the claim's reading
extracts it, but the regex word boundary treats the underscore as a word
character and the code extracts nothing from this input. -/
theorem c5_bank_boundary_counterexample :
    ¬ ("123456789" ∈ bankFindAll "_123456789" ↔
       "123456789" ∈ claim_bank_accounts "_123456789") := by decide

/-! ### Bank-account extraction: the findall scan equals the run
characterization of claim C5 (with the word-character boundary) -/

theorem digit_isWordChar {c : Char} (h : c.isDigit = true) : isWordChar c = true := by
  simp [isWordChar, Char.isAlphanum, h]

theorem takeWhile_pos_head (p : Char → Bool) :
    ∀ (l : List Char) (j : Nat), j < (l.takeWhile p).length →
      ∃ d, (l.drop j).head? = some d ∧ p d = true := by
  intro l
  induction l with
  | nil => intro j hj; simp at hj
  | cons c rest ih =>
      intro j hj
      rw [List.takeWhile_cons] at hj
      by_cases hp : p c = true
      · rw [if_pos hp] at hj
        cases j with
        | zero => exact ⟨c, rfl, hp⟩
        | succ j' =>
            simp only [List.length_cons, Nat.succ_lt_succ_iff] at hj
            simpa using ih j' hj
      · rw [if_neg hp] at hj; simp at hj

theorem dropWhile_head_neg (p : Char → Bool) :
    ∀ (l : List Char) (d : Char), (l.dropWhile p).head? = some d → p d = false := by
  intro l
  induction l with
  | nil => intro d hd; simp at hd
  | cons c rest ih =>
      intro d hd
      rw [List.dropWhile_cons] at hd
      by_cases hp : p c = true
      · rw [if_pos hp] at hd; exact ih d hd
      · rw [if_neg hp] at hd
        simp only [List.head?_cons, Option.some.injEq] at hd
        subst hd
        exact Bool.eq_false_iff.mpr hp

theorem bankTry_some_bounds {l : List Char} :
    ∀ {g L : Nat}, bankTry l g = some L → 9 ≤ L ∧ L ≤ g := by
  intro g
  induction g with
  | zero => intro L h; simp [bankTry] at h
  | succ g' ih =>
      intro L h
      rw [bankTry] at h
      split_ifs at h with h1 h2
      · exact (ih h).imp id (fun hle => Nat.le_succ_of_le hle)
      · simp only [Option.some.injEq] at h
        omega
  
theorem bankTry_lt_run_none (l : List Char) :
    ∀ k, k < (l.takeWhile Char.isDigit).length → bankTry l k = none := by
  intro k
  induction k with
  | zero => intro _; rfl
  | succ k' ih =>
      intro hk
      obtain ⟨d, hd, hdd⟩ := takeWhile_pos_head Char.isDigit l (k' + 1) hk
      rw [bankTry]
      split_ifs with h1 h2
      · rfl
      · exact ih (by omega)
      · exfalso
        rw [hd] at h2
        exact h2 (by simp [wordB, optB, digit_isWordChar hdd])

theorem bankTry_success (l : List Char) {r : Nat} (h9 : 9 ≤ r)
    (hw : wordB (l.drop r).head? = false) : bankTry l r = some r := by
  cases r with
  | zero => omega
  | succ r' =>
      rw [bankTry]
      rw [if_neg (by omega), if_neg (by rw [hw]; exact Bool.false_ne_true)]

theorem bankTry_fail_word (l : List Char) {r : Nat} (h9 : 9 ≤ r)
    (hrun : r = (l.takeWhile Char.isDigit).length)
    (hw : wordB (l.drop r).head? = true) : bankTry l r = none := by
  cases r with
  | zero => omega
  | succ r' =>
      rw [bankTry]
      rw [if_neg (by omega), if_pos (by rw [hw])]
      exact bankTry_lt_run_none l r' (by omega)

theorem bankTry_low {r : Nat} (l : List Char) (h : r < 9) : bankTry l r = none := by
  cases r with
  | zero => rfl
  | succ r' => rw [bankTry, if_pos (by omega)]

theorem bankMatchAt_success {prev : Option Char} {l : List Char} {c : Char}
    (hc : l.head? = some c) (hd : c.isDigit = true)
    (hp : wordB prev = false) (h9 : 9 ≤ (l.takeWhile Char.isDigit).length)
    (h18 : (l.takeWhile Char.isDigit).length ≤ 18)
    (hw : wordB (l.drop (l.takeWhile Char.isDigit).length).head? = false) :
    bankMatchAt prev l = some (l.takeWhile Char.isDigit).length := by
  rw [bankMatchAt]
  have hwh : wordB l.head? = true := by
    rw [hc]; simp [wordB, optB, digit_isWordChar hd]
  rw [hwh, hp, if_neg (by simp), min_eq_left h18]
  exact bankTry_success l h9 hw

theorem bankMatchAt_none_same {prev : Option Char} {l : List Char}
    (h : wordB prev = wordB l.head?) : bankMatchAt prev l = none := by
  rw [bankMatchAt, if_pos (by rw [h]; exact beq_self_eq_true _)]

theorem bankMatchAt_none_low {prev : Option Char} {l : List Char}
    (h : (l.takeWhile Char.isDigit).length < 9) : bankMatchAt prev l = none := by
  rw [bankMatchAt]
  split_ifs
  · rfl
  · exact bankTry_low l (by omega)

theorem bankMatchAt_none_high {prev : Option Char} {l : List Char}
    (h : 18 < (l.takeWhile Char.isDigit).length) : bankMatchAt prev l = none := by
  rw [bankMatchAt]
  split_ifs
  · rfl
  · rw [min_eq_right (by omega)]
    exact bankTry_lt_run_none l 18 h

theorem bankMatchAt_none_wordafter {prev : Option Char} {l : List Char}
    (h9 : 9 ≤ (l.takeWhile Char.isDigit).length)
    (h18 : (l.takeWhile Char.isDigit).length ≤ 18)
    (hw : wordB (l.drop (l.takeWhile Char.isDigit).length).head? = true) :
    bankMatchAt prev l = none := by
  rw [bankMatchAt]
  split_ifs
  · rfl
  · rw [min_eq_left h18]
    exact bankTry_fail_word l h9 rfl hw

theorem bankMatchAt_some_bounds {prev : Option Char} {l : List Char} {L : Nat}
    (h : bankMatchAt prev l = some L) :
    9 ≤ L ∧ L ≤ (l.takeWhile Char.isDigit).length := by
  rw [bankMatchAt] at h
  split_ifs at h
  have hb := bankTry_some_bounds h
  exact ⟨hb.1, le_trans hb.2 (min_le_left _ _)⟩

theorem bankMatchAt_none_nondigit {prev : Option Char} {l : List Char}
    (h : ∀ c, l.head? = some c → c.isDigit = false) : bankMatchAt prev l = none := by
  rw [bankMatchAt]
  split_ifs
  · rfl
  · have hr : (l.takeWhile Char.isDigit).length = 0 := by
      cases l with
      | nil => rfl
      | cons a as =>
          rw [List.takeWhile_cons, if_neg (by rw [h a rfl]; exact Bool.false_ne_true)]
          rfl
    rw [hr]
    exact bankTry_low l (by omega)

theorem bankScan_nil (fuel : Nat) (prev : Option Char) : bankScan fuel prev [] = [] := by
  cases fuel <;> rfl

theorem bank_runs_nil (bad : Char → Bool) (fuel : Nat) (prev : Option Char) :
    bank_runs bad fuel prev [] = [] := by
  cases fuel <;> rfl

theorem bankScan_fuel_irrel :
    ∀ (n : Nat) (l : List Char) (prev : Option Char) (f₁ f₂ : Nat),
      l.length = n → n ≤ f₁ → n ≤ f₂ → bankScan f₁ prev l = bankScan f₂ prev l := by
  intro n
  induction n using Nat.strong_induction_on with
  | _ n ih =>
      intro l prev f₁ f₂ hn h1 h2
      cases l with
      | nil => rw [bankScan_nil, bankScan_nil]
      | cons c rest =>
          subst hn
          cases f₁ with
          | zero => simp at h1
          | succ f₁' =>
              cases f₂ with
              | zero => simp at h2
              | succ f₂' =>
                  rw [bankScan, bankScan]
                  cases hm : bankMatchAt prev (c :: rest) with
                  | none =>
                      exact ih rest.length (by simp) rest (some c) f₁' f₂' rfl
                        (by simp at h1; omega) (by simp at h2; omega)
                  | some L =>
                      have hb := bankMatchAt_some_bounds hm
                      exact congrArg (List.cons ((c :: rest).take L).asString)
                        (ih ((c :: rest).drop L).length
                          (by simp only [List.length_drop, List.length_cons]; omega)
                          ((c :: rest).drop L) (some (((c :: rest).take L).getLastD c)) f₁' f₂' rfl
                          (by simp only [List.length_cons] at h1
                              simp only [List.length_drop, List.length_cons]; omega)
                          (by simp only [List.length_cons] at h2
                              simp only [List.length_drop, List.length_cons]; omega))

theorem bank_runs_fuel_irrel (bad : Char → Bool) :
    ∀ (n : Nat) (l : List Char) (prev : Option Char) (f₁ f₂ : Nat),
      l.length = n → n ≤ f₁ → n ≤ f₂ → bank_runs bad f₁ prev l = bank_runs bad f₂ prev l := by
  intro n
  induction n using Nat.strong_induction_on with
  | _ n ih =>
      intro l prev f₁ f₂ hn h1 h2
      cases l with
      | nil => rw [bank_runs_nil, bank_runs_nil]
      | cons c rest =>
          subst hn
          cases f₁ with
          | zero => simp at h1
          | succ f₁' =>
              cases f₂ with
              | zero => simp at h2
              | succ f₂' =>
                  rw [bank_runs, bank_runs]
                  by_cases hd : c.isDigit = true
                  · rw [if_pos hd, if_pos hd]
                    have hlen : (rest.dropWhile Char.isDigit).length ≤ rest.length :=
                      (List.dropWhile_sublist _).length_le
                    have hrec := ih (rest.dropWhile Char.isDigit).length
                      (by simp only [List.length_cons]; omega)
                      (rest.dropWhile Char.isDigit)
                      (some ((c :: rest.takeWhile Char.isDigit).getLastD c)) f₁' f₂' rfl
                      (by simp only [List.length_cons] at h1; omega)
                      (by simp only [List.length_cons] at h2; omega)
                    dsimp only
                    rw [hrec]
                  · rw [if_neg hd, if_neg hd]
                    exact ih rest.length (by simp) rest (some c) f₁' f₂' rfl
                      (by simp at h1; omega) (by simp at h2; omega)

theorem bankScan_skip_run :
    ∀ (t : List Char) (p : Char) (l : List Char) (fuel : Nat),
      (∀ d ∈ t, d.isDigit = true) → isWordChar p = true → (t ++ l).length ≤ fuel →
      bankScan fuel (some p) (t ++ l) = bankScan l.length (some (t.getLastD p)) l := by
  intro t
  induction t with
  | nil =>
      intro p l fuel _ _ hf
      simp only [List.nil_append, List.getLastD_nil]
      exact bankScan_fuel_irrel l.length l (some p) fuel l.length rfl (by simpa using hf) le_rfl
  | cons d t' ih =>
      intro p l fuel hdig hw hf
      cases fuel with
      | zero => simp at hf
      | succ f =>
          have hd : d.isDigit = true := hdig d (by simp)
          rw [List.cons_append, bankScan]
          rw [bankMatchAt_none_same (by
            simp [wordB, optB, hw, digit_isWordChar hd])]
          rw [List.getLastD_cons]
          exact ih d l f (fun x hx => hdig x (by simp [hx])) (digit_isWordChar hd)
            (by simp only [List.cons_append, List.length_cons] at hf; omega)

theorem bankScan_eq_runs :
    ∀ (n : Nat) (l : List Char) (prev : Option Char) (fuel : Nat),
      l.length = n → n ≤ fuel →
      bankScan fuel prev l = bank_runs isWordChar fuel prev l := by
  intro n
  induction n using Nat.strong_induction_on with
  | _ n ih =>
      intro l prev fuel hn hf
      cases l with
      | nil => rw [bankScan_nil, bank_runs_nil]
      | cons c rest =>
          subst hn
          cases fuel with
          | zero => simp at hf
          | succ f =>
              simp only [List.length_cons] at hf
              by_cases hd : c.isDigit = true
              · have htw : (c :: rest).takeWhile Char.isDigit = c :: rest.takeWhile Char.isDigit := by
                  rw [List.takeWhile_cons, if_pos hd]
                have hdw : (c :: rest).dropWhile Char.isDigit = rest.dropWhile Char.isDigit := by
                  rw [List.dropWhile_cons, if_pos hd]
                have hrest : rest = rest.takeWhile Char.isDigit ++ rest.dropWhile Char.isDigit :=
                  (List.takeWhile_append_dropWhile Char.isDigit rest).symm
                have hsplit : c :: rest =
                    (c :: rest.takeWhile Char.isDigit) ++ rest.dropWhile Char.isDigit := by
                  rw [List.cons_append]
                  exact congrArg (List.cons c) hrest
                have hlen' : (rest.dropWhile Char.isDigit).length ≤ rest.length :=
                  (List.dropWhile_sublist _).length_le
                have htdig : ∀ d ∈ rest.takeWhile Char.isDigit, d.isDigit = true :=
                  fun d hdm => List.mem_takeWhile_imp hdm
                by_cases hcond : 9 ≤ (c :: rest.takeWhile Char.isDigit).length ∧
                    (c :: rest.takeWhile Char.isDigit).length ≤ 18 ∧
                    wordB prev = false ∧ wordB (rest.dropWhile Char.isDigit).head? = false
                · obtain ⟨h9, h18, hp, hwa⟩ := hcond
                  have hdropr : (c :: rest).drop (c :: rest.takeWhile Char.isDigit).length =
                      rest.dropWhile Char.isDigit := by
                    conv in (c :: rest).drop _ => rw [hsplit]
                    exact List.drop_left _ _
                  have htaker : (c :: rest).take (c :: rest.takeWhile Char.isDigit).length =
                      c :: rest.takeWhile Char.isDigit := by
                    conv in (c :: rest).take _ => rw [hsplit]
                    exact List.take_left _ _
                  have hm : bankMatchAt prev (c :: rest) =
                      some (c :: rest.takeWhile Char.isDigit).length := by
                    have := @bankMatchAt_success prev (c :: rest) c
                      rfl hd hp (by rw [htw]; exact h9) (by rw [htw]; exact h18)
                      (by rw [htw, hdropr]; exact hwa)
                    rw [htw] at this
                    exact this
                  rw [bankScan, hm, bank_runs, if_pos hd]
                  dsimp only
                  rw [if_pos ⟨h9, h18, hp, hwa⟩, List.singleton_append, htaker, hdropr]
                  congr 1
                  refine ih (rest.dropWhile Char.isDigit).length (by simp; omega)
                    _ _ f rfl (by omega)
                · have hm : bankMatchAt prev (c :: rest) = none := by
                    by_cases hp : wordB prev = true
                    · refine bankMatchAt_none_same ?_
                      rw [hp]
                      exact (show wordB ((c :: rest).head?) = true by
                        simp [wordB, optB, digit_isWordChar hd]).symm
                    · have hp' : wordB prev = false := by
                        cases hb : wordB prev
                        · rfl
                        · exact absurd hb hp
                      by_cases h9 : 9 ≤ (c :: rest.takeWhile Char.isDigit).length
                      · by_cases h18 : (c :: rest.takeWhile Char.isDigit).length ≤ 18
                        · have hwa : wordB (rest.dropWhile Char.isDigit).head? = true := by
                            cases hb : wordB (rest.dropWhile Char.isDigit).head?
                            · exact absurd ⟨h9, h18, hp', hb⟩ hcond
                            · rfl
                          refine bankMatchAt_none_wordafter (by rw [htw]; exact h9)
                            (by rw [htw]; exact h18) ?_
                          rw [htw]
                          have hdropr : (c :: rest).drop (c :: rest.takeWhile Char.isDigit).length =
                              rest.dropWhile Char.isDigit := by
                            conv in (c :: rest).drop _ => rw [hsplit]
                            exact List.drop_left _ _
                          rw [hdropr]
                          exact hwa
                        · exact bankMatchAt_none_high (by rw [htw]; omega)
                      · exact bankMatchAt_none_low (by rw [htw]; omega)
                  rw [bankScan, hm, bank_runs, if_pos hd]
                  dsimp only
                  rw [if_neg (fun hc => hcond ⟨hc.1, hc.2.1, hc.2.2.1, hc.2.2.2⟩), List.nil_append]
                  have hskip := bankScan_skip_run (rest.takeWhile Char.isDigit) c
                    (rest.dropWhile Char.isDigit) f htdig (digit_isWordChar hd)
                    (by rw [← hrest]; omega)
                  rw [← hrest] at hskip
                  rw [hskip, List.getLastD_cons]
                  have hih := ih (rest.dropWhile Char.isDigit).length (by simp; omega)
                    (rest.dropWhile Char.isDigit)
                    (some ((rest.takeWhile Char.isDigit).getLastD c))
                    (rest.dropWhile Char.isDigit).length rfl le_rfl
                  rw [hih]
                  exact bank_runs_fuel_irrel isWordChar (rest.dropWhile Char.isDigit).length
                    _ _ _ f rfl le_rfl (by omega)
              · have hm : bankMatchAt prev (c :: rest) = none :=
                  bankMatchAt_none_nondigit (fun x hx => by
                    simp only [List.head?_cons, Option.some.injEq] at hx
                    subst hx
                    exact Bool.eq_false_iff.mpr hd)
                rw [bankScan, hm, bank_runs, if_neg hd]
                exact ih rest.length (by simp) rest (some c) f rfl (by omega)

/-- Claim C5 amended: the bank-accounts collection contains exactly the
maximal runs of 9 to 18 decimal digits bounded on both sides by word
boundaries, i.e. not adjacent to another word character (alphanumeric or
underscore); a standalone 9-digit number is extracted, an 8-digit number is
not, an 18-digit number is extracted, and a 19-digit run yields nothing. -/
theorem c5_bank_accounts_exact :
    (∀ s : String, bankFindAll s = word_bank_accounts s) ∧
    bankFindAll "123456789" = ["123456789"] ∧
    bankFindAll "12345678" = [] ∧
    bankFindAll "123456789012345678" = ["123456789012345678"] ∧
    bankFindAll "1234567890123456789" = [] := by
  refine ⟨fun s => ?_, by decide, by decide, by decide, by decide⟩
  unfold bankFindAll word_bank_accounts
  rw [bankScan_eq_runs s.toList.length s.toList none s.toList.length rfl le_rfl]

/-! ### Payment-handle and URL extraction: soundness of the scanners
against the token grammars of claims C7 and C8 -/

theorem take_all_of_le_takeWhile (p : Char → Bool) :
    ∀ (l : List Char) (n : Nat), n ≤ (l.takeWhile p).length → (l.take n).all p = true := by
  intro l
  induction l with
  | nil => intro n hn; simp at hn; simp [hn]
  | cons c rest ih =>
      intro n hn
      rw [List.takeWhile_cons] at hn
      by_cases hp : p c = true
      · rw [if_pos hp] at hn
        cases n with
        | zero => rfl
        | succ n' =>
            simp only [List.length_cons, Nat.succ_le_succ_iff] at hn
            rw [List.take_succ_cons, List.all_cons, hp, Bool.true_and]
            exact ih n' hn
      · rw [if_neg hp] at hn
        simp only [List.length_nil, Nat.le_zero] at hn
        simp [hn]

theorem upiTryLocal_sound (l : List Char) :
    ∀ (g : Nat) {A D : Nat}, upiTryLocal l g = some (A, D) →
      2 ≤ A ∧ A ≤ g ∧ ∃ rest2 : List Char, l.drop A = '@' :: rest2 ∧
        2 ≤ (rest2.takeWhile Char.isAlpha).length ∧
        D = min (rest2.takeWhile Char.isAlpha).length 64 := by
  intro g
  induction g with
  | zero => intro A D h; simp [upiTryLocal] at h
  | succ g' ih =>
      intro A D h
      rw [upiTryLocal] at h
      split_ifs at h with h1
      rcases hdrop : l.drop (g' + 1) with _ | ⟨c2, rest2⟩ <;> rw [hdrop] at h <;>
        dsimp only at h
      · exact (ih h).imp id (fun hr => ⟨Nat.le_succ_of_le hr.1, hr.2⟩)
      · by_cases hat : c2 = '@'
        · rw [if_pos hat] at h
          split_ifs at h with h2
          · simp only [Option.some.injEq, Prod.mk.injEq] at h
            obtain ⟨hA, hD⟩ := h
            subst hA hD
            subst hat
            exact ⟨by omega, le_rfl, rest2, hdrop, h2, rfl⟩
          · exact (ih h).imp id (fun hr => ⟨Nat.le_succ_of_le hr.1, hr.2⟩)
        · rw [if_neg hat] at h
          exact (ih h).imp id (fun hr => ⟨Nat.le_succ_of_le hr.1, hr.2⟩)

theorem upiMatchAt_sound {l : List Char} {L : Nat} (h : upiMatchAt l = some L) :
    ∃ a b : List Char, l.take L = a ++ '@' :: b ∧
      a.all localChar = true ∧ 2 ≤ a.length ∧ a.length ≤ 256 ∧
      b.all Char.isAlpha = true ∧ 2 ≤ b.length ∧ b.length ≤ 64 := by
  rw [upiMatchAt] at h
  rcases hm : upiTryLocal l (min (l.takeWhile localChar).length 256) with _ | ⟨A, D⟩ <;>
    rw [hm] at h
  · exact absurd h (by simp)
  · simp only [Option.some.injEq] at h
    obtain ⟨h2A, hAg, rest2, hdrop, hd2, hD⟩ := upiTryLocal_sound l _ hm
    have hA256 : A ≤ 256 := le_trans hAg (min_le_right _ _)
    have hAtw : A ≤ (l.takeWhile localChar).length := le_trans hAg (min_le_left _ _)
    have hD2 : 2 ≤ D := by omega
    have hD64 : D ≤ 64 := by omega
    have hDtw : D ≤ (rest2.takeWhile Char.isAlpha).length := by omega
    have hAl : A ≤ l.length := le_trans hAtw (List.takeWhile_sublist _).length_le
    refine ⟨l.take A, rest2.take D, ?_, take_all_of_le_takeWhile _ _ _ hAtw,
      by rw [List.length_take]; omega, by rw [List.length_take]; omega,
      take_all_of_le_takeWhile _ _ _ hDtw, ?_, ?_⟩
    · subst h
      rw [show A + 1 + D = A + (D + 1) by omega, List.take_add, hdrop, List.take_succ_cons]
    · have : (rest2.take D).length = D := by
        rw [List.length_take]
        have hr2 : D ≤ rest2.length :=
          le_trans hDtw (List.takeWhile_sublist _).length_le
        omega
      omega
    · have : (rest2.take D).length = D := by
        rw [List.length_take]
        have hr2 : D ≤ rest2.length :=
          le_trans hDtw (List.takeWhile_sublist _).length_le
        omega
      omega

theorem upiScan_mem :
    ∀ (fuel : Nat) (l : List Char) (t : String), t ∈ upiScan fuel l →
      ∃ (l' : List Char) (L : Nat), upiMatchAt l' = some L ∧ t = (l'.take L).asString := by
  intro fuel
  induction fuel with
  | zero => intro l t ht; simp [upiScan] at ht
  | succ f ih =>
      intro l t ht
      cases l with
      | nil => simp [upiScan] at ht
      | cons c rest =>
          rw [upiScan] at ht
          cases hm : upiMatchAt (c :: rest) with
          | none =>
              rw [hm] at ht
              exact ih _ _ ht
          | some L =>
              rw [hm] at ht
              rcases List.mem_cons.mp ht with heq | hmem
              · exact ⟨c :: rest, L, hm, heq⟩
              · exact ih _ _ hmem

/-- Claim C7: every extracted payment handle is a token of the form
local-part at-sign domain-label with the local part 2 to 256 characters
from [A-Za-z0-9.\-_] and the domain label 2 to 64 alphabetic characters,
and the claim's example input extracts exactly user.name@bank. -/
theorem c7_payment_handles :
    (∀ (s t : String), t ∈ upiFindAll s →
      ∃ a b : List Char, t = (a ++ '@' :: b).asString ∧
        a.all localChar = true ∧ 2 ≤ a.length ∧ a.length ≤ 256 ∧
        b.all Char.isAlpha = true ∧ 2 ≤ b.length ∧ b.length ≤ 64) ∧
    upiFindAll "pay to user.name@bank for help" = ["user.name@bank"] := by
  refine ⟨fun s t ht => ?_, by decide⟩
  rw [upiFindAll, List.mem_dedup] at ht
  obtain ⟨l', L, hm, rfl⟩ := upiScan_mem _ _ _ ht
  obtain ⟨a, b, hdec, hal, ha2, ha256, hbl, hb2, hb64⟩ := upiMatchAt_sound hm
  exact ⟨a, b, by rw [hdec], hal, ha2, ha256, hbl, hb2, hb64⟩

/-- Witness for C7: the extracted handle of the example input has the
claimed shape. -/
theorem c7_payment_handles_witness :
    ∃ a b : List Char, "user.name@bank" = (a ++ '@' :: b).asString ∧
      a.all localChar = true ∧ 2 ≤ a.length ∧ a.length ≤ 256 ∧
      b.all Char.isAlpha = true ∧ 2 ≤ b.length ∧ b.length ≤ 64 :=
  c7_payment_handles.1 "pay to user.name@bank for help" "user.name@bank" (by decide)

theorem take_len_takeWhile (q : Char → Bool) :
    ∀ l : List Char, l.take ((l.takeWhile q).length) = l.takeWhile q := by
  intro l
  induction l with
  | nil => rfl
  | cons c rest ih =>
      rw [List.takeWhile_cons]
      by_cases hq : q c = true
      · rw [if_pos hq, List.length_cons, List.take_succ_cons, ih]
      · rw [if_neg hq]
        rfl

theorem takeHost_le : ∀ (fuel : Nat) (l : List Char), takeHost fuel l ≤ l.length := by
  intro fuel
  induction fuel with
  | zero => intro l; rw [takeHost]; omega
  | succ f ih =>
      intro l
      cases l with
      | nil => rw [takeHost]; simp
      | cons c rest =>
          rw [takeHost.eq_def]
          dsimp only
          split_ifs with h1 h2
          · have := ih rest
            simp only [List.length_cons]
            omega
          · rcases rest with _ | ⟨a, rest'⟩
            · simp
            rcases rest' with _ | ⟨b, rest''⟩
            · simp
            · dsimp only
              split_ifs with h3
              · have := ih rest''
                simp only [List.length_cons]
                omega
              · simp
          · simp

theorem takeHost_sound :
    ∀ (fuel : Nat) (l : List Char), hostUnitsOk (l.take (takeHost fuel l)) = true := by
  intro fuel
  induction fuel with
  | zero => intro l; rw [takeHost]; rfl
  | succ f ih =>
      intro l
      cases l with
      | nil => rw [takeHost]; rfl
      | cons c rest =>
          rw [takeHost.eq_def]
          dsimp only
          split_ifs with h1 h2
          · rw [show 1 + takeHost f rest = takeHost f rest + 1 by omega,
              List.take_succ_cons, hostUnitsOk.eq_def]
            dsimp only
            rw [if_pos h1]
            exact ih rest
          · rcases rest with _ | ⟨a, rest'⟩
            · rfl
            rcases rest' with _ | ⟨b, rest''⟩
            · rfl
            · dsimp only
              split_ifs with h3
              · rw [show 3 + takeHost f rest'' = (takeHost f rest'' + 1) + 1 + 1 by omega,
                  List.take_succ_cons, List.take_succ_cons, List.take_succ_cons,
                  hostUnitsOk.eq_def]
                dsimp only
                rw [if_neg h1, if_pos h2]
                rw [h3, Bool.true_and]
                exact ih rest''
              · rfl
          · rfl

theorem drop_head_cons {l : List Char} {n : Nat} {x : Char}
    (h : (l.drop n).head? = some x) : l.drop n = x :: l.drop (n + 1) := by
  rcases hd : l.drop n with _ | ⟨y, ys⟩
  · rw [hd] at h; simp at h
  · rw [hd] at h
    simp only [List.head?_cons, Option.some.injEq] at h
    subst h
    have hys : l.drop (n + 1) = ys := by
      rw [← List.drop_drop 1 n l, hd]
      rfl
    rw [hys]

theorem urlMatchTail_sound {k : Nat} {l : List Char} {L : Nat}
    (h : urlMatchTail k l = some L) :
    ∃ host path : List Char, l.take L = l.take k ++ host ++ path ∧
      hostUnitsOk host = true ∧ host ≠ [] ∧
      (path = [] ∨ ∃ cs : List Char, path = '/' :: cs ∧ cs.all pathChar = true) := by
  rw [urlMatchTail] at h
  set N := takeHost (l.drop k).length (l.drop k) with hN
  split_ifs at h with hn hslash
  · -- slash branch
    simp only [Option.some.injEq] at h
    subst h
    set P := ((l.drop k).drop (N + 1)).takeWhile pathChar with hP
    have hdropN : (l.drop k).drop N = '/' :: (l.drop k).drop (N + 1) := drop_head_cons hslash
    refine ⟨(l.drop k).take N, '/' :: P, ?_, ?_, ?_, Or.inr ⟨P, rfl, List.all_takeWhile⟩⟩
    · rw [show k + N + 1 + P.length = k + (N + (P.length + 1)) by omega, List.take_add,
        List.take_add, hdropN, List.take_succ_cons, hP, take_len_takeWhile,
        List.append_assoc]
    · exact takeHost_sound _ _
    · have hle : N ≤ (l.drop k).length := takeHost_le _ _
      apply List.ne_nil_of_length_pos
      rw [List.length_take]
      omega
  · -- no-path branch
    simp only [Option.some.injEq] at h
    subst h
    refine ⟨(l.drop k).take N, [], ?_, takeHost_sound _ _, ?_, Or.inl rfl⟩
    · rw [List.append_nil, List.take_add]
    · have hle : N ≤ (l.drop k).length := takeHost_le _ _
      apply List.ne_nil_of_length_pos
      rw [List.length_take]
      omega

theorem urlMatchAt_sound {l : List Char} {L : Nat} (h : urlMatchAt l = some L) :
    ∃ sch host path : List Char, l.take L = sch ++ host ++ path ∧
      (sch = "http://".toList ∨ sch = "https://".toList) ∧
      hostUnitsOk host = true ∧ host ≠ [] ∧
      (path = [] ∨ ∃ cs : List Char, path = '/' :: cs ∧ cs.all pathChar = true) := by
  rw [urlMatchAt] at h
  split_ifs at h with h8 h7
  · obtain ⟨host, path, hdec, hho, hne, hpa⟩ := urlMatchTail_sound h
    have hsch : l.take 8 = "https://".toList := by
      have hp := List.prefix_iff_eq_take.mp (List.isPrefixOf_iff_prefix.mp h8)
      exact hp.symm
    exact ⟨"https://".toList, host, path, by rw [hdec, hsch], Or.inr rfl, hho, hne, hpa⟩
  · obtain ⟨host, path, hdec, hho, hne, hpa⟩ := urlMatchTail_sound h
    have hsch : l.take 7 = "http://".toList := by
      have hp := List.prefix_iff_eq_take.mp (List.isPrefixOf_iff_prefix.mp h7)
      exact hp.symm
    exact ⟨"http://".toList, host, path, by rw [hdec, hsch], Or.inl rfl, hho, hne, hpa⟩

theorem urlScan_mem :
    ∀ (fuel : Nat) (l : List Char) (t : String), t ∈ urlScan fuel l →
      ∃ (l' : List Char) (L : Nat), urlMatchAt l' = some L ∧ t = (l'.take L).asString := by
  intro fuel
  induction fuel with
  | zero => intro l t ht; simp [urlScan] at ht
  | succ f ih =>
      intro l t ht
      cases l with
      | nil => simp [urlScan] at ht
      | cons c rest =>
          rw [urlScan] at ht
          cases hm : urlMatchAt (c :: rest) with
          | none =>
              rw [hm] at ht
              exact ih _ _ ht
          | some L =>
              rw [hm] at ht
              rcases List.mem_cons.mp ht with heq | hmem
              · exact ⟨c :: rest, L, hm, heq⟩
              · exact ih _ _ hmem

/-- Claim C8: every extracted phishing link starts with http:// or
https:// followed by a non-empty sequence of characters from [-\w.] or
percent-encoded octets, optionally followed by a slash-led segment of
characters from the URL-safe set, and the claim's example input extracts
exactly https://example.com/path?x=1 (greedy matching stops at the space). -/
theorem c8_phishing_links :
    (∀ (s t : String), t ∈ urlFindAll s →
      ∃ sch host path : List Char, t = (sch ++ host ++ path).asString ∧
        (sch = "http://".toList ∨ sch = "https://".toList) ∧
        hostUnitsOk host = true ∧ host ≠ [] ∧
        (path = [] ∨ ∃ cs : List Char, path = '/' :: cs ∧ cs.all pathChar = true)) ∧
    urlFindAll "visit https://example.com/path?x=1 now" = ["https://example.com/path?x=1"] := by
  refine ⟨fun s t ht => ?_, by decide⟩
  rw [urlFindAll, List.mem_dedup] at ht
  obtain ⟨l', L, hm, rfl⟩ := urlScan_mem _ _ _ ht
  obtain ⟨sch, host, path, hdec, hs, hho, hne, hpa⟩ := urlMatchAt_sound hm
  exact ⟨sch, host, path, by rw [hdec], hs, hho, hne, hpa⟩

/-- Witness for C8: the extracted link of the example input has the claimed
shape. -/
theorem c8_phishing_links_witness :
    ∃ sch host path : List Char,
      "https://example.com/path?x=1" = (sch ++ host ++ path).asString ∧
      (sch = "http://".toList ∨ sch = "https://".toList) ∧
      hostUnitsOk host = true ∧ host ≠ [] ∧
      (path = [] ∨ ∃ cs : List Char, path = '/' :: cs ∧ cs.all pathChar = true) :=
  c8_phishing_links.1 "visit https://example.com/path?x=1 now" "https://example.com/path?x=1" (by decide)
